import Mathlib

set_option maxHeartbeats 1000000

/-!
Verification development for the columnar storage core of an in-memory
analytical database engine (fixed-width string pool, dictionary encoding,
the Difference operator, the row-hash function, and the binary persistence
codec).  Definitions are shallow embeddings of the corresponding C++
source; where an implementation file is not part of the source tree the
definition is modelled from the specification and marked as such in its
doc comment.
-/

/- ### Byte-wise lexicographic string order (std::string comparison) -/

/-- Lexicographic comparison of character lists by code point, the order
`std::string`'s relational operators implement byte-wise. -/
def charListLe : List Char → List Char → Bool
  | [], _ => true
  | _ :: _, [] => false
  | a :: as, b :: bs =>
    if a.toNat < b.toNat then true
    else if b.toNat < a.toNat then false
    else charListLe as bs

/-- Non-strict lexicographic string comparison (`operator<=`). -/
def strLe (a b : String) : Bool := charListLe a.data b.data

/-- Strict lexicographic string comparison (`operator<`). -/
def strLt (a b : String) : Bool := strLe a b && !(strLe b a)

/- ### Fixed-width string pool (FixedStringVector) -/

/-- Error kind raised by the checked string-pool mode (spec §7). -/
inductive PoolError
  | CapacityExceeded
  deriving DecidableEq

/-- Modelled from the spec: the checked/unchecked behavioural split of the
pool is an explicit runtime mode (spec §4.3 / §9). -/
inductive PoolMode
  | checked
  | unchecked
  deriving DecidableEq

/-- Modelled from the spec: the fixed-width string pool
(`FixedStringVector`, implementation not under src/, behaviour pinned by
`fixedstring_vector_test.cpp`).  `string_length` is the immutable
`max_length` chosen at construction; `strings` holds the logical (already
truncated) slot contents in order. -/
structure FixedStringVector where
  string_length : Nat
  strings : List String
  deriving DecidableEq

/-- Number of slots currently stored in the pool. -/
def FixedStringVector.size (v : FixedStringVector) : Nat := v.strings.length

/-- Fixed per-object byte overhead included in `data_size()`.  Pinned by
the `DataSize` test: a pool with `max_length = 4` and 2 entries reports
`data_size() == 48`, i.e. `48 - 2 * 4 = 40` bytes beyond the slot
payload. -/
def fixedStringVectorObjectBytes : Nat := 40

/-- Byte footprint reported by the pool: the fixed object overhead plus
one `string_length`-byte slot per entry (pinned by the `DataSize` test). -/
def FixedStringVector.data_size (v : FixedStringVector) : Nat :=
  fixedStringVectorObjectBytes + v.size * v.string_length

/-- Truncation of a string to its first `n` characters. -/
def strTruncate (s : String) (n : Nat) : String := ⟨s.data.take n⟩

/-- Modelled from the spec (§4.3): `append`/`push_back` of one string.  A
string longer than `max_length` fails with `CapacityExceeded` in checked
mode and is silently truncated to the first `max_length` bytes in
unchecked mode (pinned by the `SubscriptOperator`/`AtOperator` tests). -/
def FixedStringVector.push_back (mode : PoolMode) (v : FixedStringVector) (s : String) :
    Except PoolError FixedStringVector :=
  if s.length ≤ v.string_length then
    Except.ok { v with strings := v.strings ++ [s] }
  else
    match mode with
    | PoolMode.checked => Except.error PoolError.CapacityExceeded
    | PoolMode.unchecked =>
        Except.ok { v with strings := v.strings ++ [strTruncate s v.string_length] }

/-- Read-only view of slot `i` with its logical trimmed length. -/
def FixedStringVector.at' (v : FixedStringVector) (i : Nat) : String := v.strings.getD i ""

/-- A freshly constructed pool with the given `max_length` and no slots. -/
def emptyPool (maxLength : Nat) : FixedStringVector := ⟨maxLength, []⟩

/-- Bulk append of a sequence of strings under the given mode (spec §4.3:
bulk construction from an arbitrary sequence, each element
truncated/rejected per the active mode). -/
def pushList (mode : PoolMode) (v : FixedStringVector) : List String → Except PoolError FixedStringVector
  | [] => Except.ok v
  | s :: rest =>
    match v.push_back mode s with
    | Except.ok v2 => pushList mode v2 rest
    | Except.error e => Except.error e

/- ### Dictionary encoding of a string value column -/

/-- Modelled from the spec (§4.2): dictionary construction collects the
distinct values of the encoded column and sorts them ascending
(implementation of `encode_column` not under src/, behaviour pinned by
`fixedstring_column_test.cpp`). -/
def dictionary_of (values : List String) : List String :=
  values.dedup.insertionSort (fun a b => strLe a b = true)

/-- Modelled from the spec (§4.2): the attribute vector maps each row's
value to its id in the sorted dictionary. -/
def attribute_vector_of (values : List String) : List Nat :=
  values.map (fun s => (dictionary_of values).indexOf s)

/-- Number of distinct values of the encoded column. -/
def unique_values_count (values : List String) : Nat := (dictionary_of values).length

/-- The invalid value-id sentinel (`INVALID_VALUE_ID`, the maximum of the
32-bit `ValueID` domain). -/
def INVALID_VALUE_ID : Nat := 4294967295

/-- Generic first-index search used by the dictionary bound lookups:
the index of the first dictionary entry satisfying `p`, counted from the
accumulator `i`, or the invalid sentinel when none does. -/
def bound_search (p : String → Bool) : List String → Nat → Nat
  | [], _ => INVALID_VALUE_ID
  | s :: rest, i => if p s then i else bound_search p rest (i + 1)

/-- Modelled from the spec (§4.2): `lower_bound(probe)` is the smallest
value id whose dictionary value is `≥ probe`, or the invalid sentinel if
none exists. -/
def lower_bound (dict : List String) (probe : String) : Nat :=
  bound_search (fun s => strLe probe s) dict 0

/-- Modelled from the spec (§4.2): `upper_bound(probe)` is the smallest
value id whose value is `> probe`, or the invalid sentinel if none
exists. -/
def upper_bound (dict : List String) (probe : String) : Nat :=
  bound_search (fun s => strLt probe s) dict 0

/-- Accessible dictionary entries of the clone produced by
`copy_using_allocator` on the column encoded from
`["Bill", "Steve", "Alexander"]`, exactly as pinned by the assertions of
the `CopyUsingAlloctor` test (`fixedstring_column_test.cpp:76-80`): the
slot at index 3 is accessible and repeats `"Steve"`. -/
def copy_using_allocator_observed_dictionary : List String :=
  ["Alexander", "Bill", "Steve", "Steve"]

/- ### Row-hash function (hash_function.cpp) -/

/-- Type tags of the non-null alternatives of `AllTypeVariant`
(int32_t, int64_t, float, double, std::string). -/
inductive TypeTag
  | int
  | long
  | flt
  | dbl
  | str
  deriving DecidableEq

/-- Shallow embedding of `AllTypeVariant`: a variant whose first
alternative is `NullValue`, over an arbitrary assignment `F` of payload
types to the tags. -/
inductive AllTypeVariant (F : TypeTag → Type) where
  | nullValue
  | typed (t : TypeTag) (x : F t)

/-- Embedding of `HashFunction::operator()` (hash_function.cpp:7-20):
`boost::apply_visitor` with `HashValueVisitor` maps `NullValue` to
`HashValue{0}` and any typed value to `std::hash<T>` of the value;
`stdHash` stands for the family of `std::hash<T>` instantiations. -/
def HashFunction (F : TypeTag → Type) (stdHash : ∀ t, F t → Nat) :
    AllTypeVariant F → Nat
  | AllTypeVariant.nullValue => 0
  | AllTypeVariant.typed t x => stdHash t x

/- ### The Difference operator (difference.cpp) -/

/-- A row position: (chunk id, chunk offset), as in `RowID`. -/
abbrev RowID := Nat × Nat

/-- Little-endian byte quadruple of the `uint32_t` cast of a string
length, exactly the four bytes
`row_string_buffer.write(reinterpret_cast<const char*>(&length), 4)`
appends (difference.cpp:140-146). -/
def lenBytes (n : Nat) : List Nat :=
  [n % 256, n / 256 % 256, n / 65536 % 256, n / 16777216 % 256]

/-- The bytes one value contributes to a row's string representation:
the value's string, then the four raw bytes of its length. -/
def field_representation (s : List Char) : List Nat :=
  s.map Char.toNat ++ lenBytes s.length

/-- Embedding of `Difference::append_string_representation`
(difference.cpp:138-147): appends the value's string representation
followed by the byte representation of its `uint32_t` length to the row
buffer. -/
def append_string_representation (buf : List Nat) (s : List Char) : List Nat :=
  buf ++ field_representation s

/-- The byte-string representation of one row, built value by value as
in `Difference::_on_execute`; `cast` models `type_cast<std::string>`. -/
def row_representation {V : Type} (cast : V → List Char) (r : List V) : List Nat :=
  r.foldl (fun buf v => append_string_representation buf (cast v)) []

/-- The value domain of the Difference example rows (an int column and a
string column). -/
inductive DiffValue
  | vInt (i : Int)
  | vStr (s : List Char)
  deriving DecidableEq

/-- Embedding of `type_cast<std::string>` on the example value domain:
decimal representation for ints, identity for strings. -/
def type_cast_string : DiffValue → List Char
  | DiffValue.vInt i => (toString i).data
  | DiffValue.vStr s => s

/-- One input column of a chunk as the Difference operator reads it: the
materialized values (`(*base_column)[chunk_offset]`) and, for a
`ReferenceColumn`, the identity of its shared input position list
(`pos_list()`); `none` for non-reference columns. -/
structure InCol (V : Type) where
  values : List V
  posId : Option Nat

/-- One chunk of an input table. -/
structure InChunk (V : Type) where
  cols : List (InCol V)

/-- chunk->size(): the row count of the chunk (all columns of a chunk
agree on it; the first is read). -/
def chunkSize {V : Type} (c : InChunk V) : Nat :=
  match c.cols with
  | [] => 0
  | col :: _ => col.values.length

/-- The row of a chunk at one offset, read column-wise. -/
def chunkRow {V : Type} (dflt : V) (c : InChunk V) (o : Nat) : List V :=
  c.cols.map (fun col => col.values.getD o dflt)

/-- All rows of a table given as a chunk list, in chunk order. -/
def tableRows {V : Type} (dflt : V) (chunks : List (InChunk V)) : List (List V) :=
  (chunks.map (fun c => (List.range (chunkSize c)).map (chunkRow dflt c))).flatten

/-- Step 1 of `Difference::_on_execute` (difference.cpp:36-61): the
representations of all right input rows; membership below is the
extensional content of the `unordered_set` lookup. -/
def right_input_row_set {V : Type} (cast : V → List Char) (dflt : V)
    (right : List (InChunk V)) : List (List Nat) :=
  (tableRows dflt right).map (row_representation cast)

/-- The chunk offsets whose row representation is not found in the right
row set (difference.cpp:102-127); exactly these offsets are appended to
every output position list of the chunk. -/
def surviving_offsets {V : Type} (cast : V → List Char) (dflt : V)
    (rightSet : List (List Nat)) (c : InChunk V) : List Nat :=
  (List.range (chunkSize c)).filter
    (fun o => !(decide (row_representation cast (chunkRow dflt c o) ∈ rightSet)))

/-- One output `ReferenceColumn` of the Difference result: the key of
the input position list it was derived from and its shared output
position list. -/
structure OutCol where
  posId : Option Nat
  posList : List RowID
  deriving DecidableEq

/-- The output position-list entry for one surviving offset
(difference.cpp:119-125): the input position list's entry at the offset
for reference-column inputs, `RowID{chunk_id, chunk_offset}` otherwise. -/
def entry_for (posLists : List (List RowID)) (chunkId : Nat) (pid : Option Nat)
    (o : Nat) : RowID :=
  match pid with
  | none => (chunkId, o)
  | some k => (posLists.getD k []).getD o (0, 0)

/-- The output columns of one kept chunk (difference.cpp:69-100): one
`ReferenceColumn` per input column; columns stemming from the same input
position list share one output position list (the `out_pos_list_map`),
which receives one entry per surviving offset. -/
def out_chunk_columns {V : Type} (posLists : List (List RowID)) (chunkId : Nat)
    (c : InChunk V) (surv : List Nat) : List OutCol :=
  c.cols.map (fun col =>
    { posId := col.posId, posList := surv.map (entry_for posLists chunkId col.posId) })

/-- Processing of one left chunk: build the output columns, then append
the chunk to the output only if it has columns and its first column is
non-empty (difference.cpp:129-132). -/
def difference_chunk {V : Type} (cast : V → List Char) (dflt : V)
    (posLists : List (List RowID)) (rightSet : List (List Nat)) (chunkId : Nat)
    (c : InChunk V) : Option (List OutCol) :=
  let surv := surviving_offsets cast dflt rightSet c
  match out_chunk_columns posLists chunkId c surv with
  | [] => none
  | oc :: rest => if 0 < oc.posList.length then some (oc :: rest) else none

/-- Embedding of `Difference::_on_execute` (difference.cpp:30-136): the
chunks of the output table, in left-chunk order.  `posLists` is the pool
of input position lists referenced by the `posId` keys. -/
def difference {V : Type} (cast : V → List Char) (dflt : V)
    (posLists : List (List RowID)) (left right : List (InChunk V)) : List (List OutCol) :=
  (left.enum).filterMap (fun ic =>
    difference_chunk cast dflt posLists (right_input_row_set cast dflt right) ic.1 ic.2)

/-- The rows the Difference output materializes to: for each left chunk,
the rows at the surviving offsets, in order (the output reference
columns point back at exactly these left-table positions). -/
def difference_output_rows {V : Type} (cast : V → List Char) (dflt : V)
    (left right : List (InChunk V)) : List (List V) :=
  (left.map (fun c =>
    (surviving_offsets cast dflt (right_input_row_set cast dflt right) c).map
      (chunkRow dflt c))).flatten

/-- The left input of the Difference example: one chunk with an int
column `[1, 2, 2]` and a string column `["a", "b", "b"]`, both plain
value columns. -/
def exampleDifferenceLeft : List (InChunk DiffValue) :=
  [⟨[⟨[DiffValue.vInt 1, DiffValue.vInt 2, DiffValue.vInt 2], none⟩,
     ⟨[DiffValue.vStr ['a'], DiffValue.vStr ['b'], DiffValue.vStr ['b']], none⟩]⟩]

/-- The right input of the Difference example: one chunk holding the
single row `(2, "b")`. -/
def exampleDifferenceRight : List (InChunk DiffValue) :=
  [⟨[⟨[DiffValue.vInt 2], none⟩, ⟨[DiffValue.vStr ['b']], none⟩]⟩]

/-- A small injective value cast used to instantiate the generic
Difference semantics at a concrete input. -/
def witnessBoolCast : Bool → List Char := fun b => if b then ['t'] else ['f']

/-- A concrete left input for the generic Difference semantics
witness. -/
def witnessBoolLeft : List (InChunk Bool) := [⟨[⟨[true, false], none⟩]⟩]

/-- A concrete right input for the generic Difference semantics
witness. -/
def witnessBoolRight : List (InChunk Bool) := [⟨[⟨[false], none⟩]⟩]

/- ### Binary persistence codec (export_binary / import_binary) -/

/-- The value data types of the codec model (a fixed-width type and the
length-prefixed string type of the format). -/
inductive DataType
  | int
  | str
  deriving DecidableEq

/-- A typed column value of the codec model. -/
inductive Value
  | vInt (i : Int)
  | vStr (s : List Char)
  deriving DecidableEq

/-- Error kinds of the codec (spec §7). -/
inductive CodecError
  | CorruptFormat
  | UnsupportedNullValue
  deriving DecidableEq

/-- Little-endian byte string of `n` over `w` bytes (the value of an
unsigned `w`-byte machine integer, high bits truncated as by a cast). -/
def encWidth : Nat → Nat → List Nat
  | 0, _ => []
  | w + 1, n => n % 256 :: encWidth w (n / 256)

/-- One-byte field (uint8). -/
def w8 (n : Nat) : List Nat := encWidth 1 n

/-- Two-byte little-endian field (uint16: ColumnID, PartitionID,
StringLength). -/
def w16 (n : Nat) : List Nat := encWidth 2 n

/-- Four-byte little-endian field (uint32: ChunkOffset, ChunkID,
ColumnID, ValueID). -/
def w32 (n : Nat) : List Nat := encWidth 4 n

/-- Modelled from the spec (§6): 1-byte type tags of the column data
types. -/
def typeTag : DataType → Nat
  | DataType.int => 0
  | DataType.str => 1

/-- Modelled from the spec (§6): a serialized value is a 4-byte
two's-complement integer or a 2-byte length followed by the string
bytes. -/
def encValue : Value → List Nat
  | Value.vInt i => w32 (i % 4294967296).toNat
  | Value.vStr s => w16 s.length ++ s.map Char.toNat

/-- One column definition of the table schema: name, data type,
nullability. -/
structure ColumnDefinition where
  name : List Char
  dataType : DataType
  nullable : Bool
  deriving DecidableEq

/-- The stored representation of one column of one chunk: an
uncompressed value column or a dictionary column (attribute-vector
width, sorted dictionary, codes). -/
inductive ColumnData
  | value (values : List Value)
  | dictionary (avWidth : Nat) (dict : List Value) (codes : List Nat)
  deriving DecidableEq

/-- The stored row count of a column. -/
def ColumnData.size : ColumnData → Nat
  | ColumnData.value vs => vs.length
  | ColumnData.dictionary _ _ codes => codes.length

/-- One chunk: one column per table column, in schema order. -/
structure Chunk where
  columns : List ColumnData
  deriving DecidableEq

/-- chunk->size(): the row count, read from the first column. -/
def Chunk.rowCount (c : Chunk) : Nat :=
  match c.columns with
  | [] => 0
  | col :: _ => col.size

/-- Modelled from the spec (§4.1/§6): the partitioning scheme and its
persisted state (designated column and typed bounds for Range, the
designated column for Hash). -/
inductive PartitionSchema
  | nullPartitioning
  | roundRobin
  | range (columnId : Nat) (boundType : DataType) (bounds : List Value)
  | hash (columnId : Nat)
  deriving DecidableEq

/-- Modelled from the spec (§6): the 1-byte partitioning scheme tag. -/
def schemaTag : PartitionSchema → Nat
  | PartitionSchema.nullPartitioning => 0
  | PartitionSchema.roundRobin => 1
  | PartitionSchema.range _ _ _ => 2
  | PartitionSchema.hash _ => 3

/-- Modelled from the spec (§6): the scheme-specific payload written
after the partition count: empty for Null/RoundRobin, column id + bound
type tag + bounds for Range, column id for Hash. -/
def schemaPayload : PartitionSchema → List Nat
  | PartitionSchema.nullPartitioning => []
  | PartitionSchema.roundRobin => []
  | PartitionSchema.range cid dt bounds =>
      w32 cid ++ w8 (typeTag dt) ++ (bounds.map encValue).flatten
  | PartitionSchema.hash cid => w32 cid

/-- A table of the codec model: chunk size, column definitions,
partitioning scheme/state, the chunk-id list of every partition, and the
chunks. -/
structure Table where
  chunkSize : Nat
  columnDefinitions : List ColumnDefinition
  schema : PartitionSchema
  partitions : List (List Nat)
  chunks : List Chunk
  deriving DecidableEq

/-- Modelled from the spec (§6) and the layout docs of
`ExportBinary::ExportBinaryVisitor`: one column's payload, tagged by its
1-byte encoding kind; a nullable value column is preceded by one null
flag byte per row (all zero here: the model stores no nulls, and the
format cannot represent them). -/
def encodeColumn (nullable : Bool) (rows : Nat) : ColumnData → List Nat
  | ColumnData.value vs =>
      w8 0 ++ (if nullable then List.replicate rows 0 else []) ++ (vs.map encValue).flatten
  | ColumnData.dictionary w dict codes =>
      w8 1 ++ w8 w ++ w32 dict.length ++ (dict.map encValue).flatten ++
        (codes.map (encWidth w)).flatten

/-- Modelled from the spec (§6): per-chunk block: 4-byte row count, then
each column's payload in schema order. -/
def encodeChunk (defs : List ColumnDefinition) (c : Chunk) : List Nat :=
  w32 c.rowCount ++
    ((List.zip defs c.columns).map
      (fun pr => encodeColumn pr.1.nullable c.rowCount pr.2)).flatten

/-- Modelled from the spec (§6): per-partition block: 4-byte chunk
count, then the partition's chunk ids. -/
def encodePartition (p : List Nat) : List Nat :=
  w32 p.length ++ (p.map w32).flatten

/-- Modelled from the spec (§6) and the header docs of
`ExportBinary::_write_header` / `_write_partitioning_header` /
`_write_partition` / `_write_chunk`: the byte stream of a table. -/
def encodeTable (t : Table) : List Nat :=
  w32 t.chunkSize ++ w32 t.chunks.length ++ w16 t.columnDefinitions.length ++
    (t.columnDefinitions.map (fun d => w8 (typeTag d.dataType))).flatten ++
    (t.columnDefinitions.map (fun d => w8 (if d.nullable then 1 else 0))).flatten ++
    (t.columnDefinitions.map (fun d => w8 d.name.length)).flatten ++
    (t.columnDefinitions.map (fun d => d.name.map Char.toNat)).flatten ++
    w8 (schemaTag t.schema) ++ w16 t.partitions.length ++ schemaPayload t.schema ++
    (t.partitions.map encodePartition).flatten ++
    (t.chunks.map (encodeChunk t.columnDefinitions)).flatten

/-- The byte-stream reader: a state-passing parser returning a value and
the unread remainder, or a codec error. -/
def ReadM (α : Type) : Type := List Nat → Except CodecError (α × List Nat)

/-- Reader returning a fixed value. -/
def ReadM.pure {α : Type} (a : α) : ReadM α := fun s => Except.ok (a, s)

/-- Reader sequencing. -/
def ReadM.bind {α β : Type} (m : ReadM α) (f : α → ReadM β) : ReadM β := fun s =>
  match m s with
  | Except.ok (a, s2) => f a s2
  | Except.error e => Except.error e

instance : Monad ReadM where
  pure := ReadM.pure
  bind := ReadM.bind

/-- Reader failing with the given error. -/
def ReadM.fail {α : Type} (e : CodecError) : ReadM α := fun _ => Except.error e

/-- Reads one byte; a truncated stream is a corrupt-format error. -/
def readByte : ReadM Nat := fun s =>
  match s with
  | [] => Except.error CodecError.CorruptFormat
  | b :: rest => Except.ok (b, rest)

/-- Reads `n` raw bytes. -/
def readBytes : Nat → ReadM (List Nat)
  | 0 => ReadM.pure []
  | n + 1 => do
    let b ← readByte
    let bs ← readBytes n
    ReadM.pure (b :: bs)

/-- The value of a little-endian byte string. -/
def valLE : List Nat → Nat
  | [] => 0
  | b :: bs => b + 256 * valLE bs

/-- Reads a `k`-byte little-endian unsigned integer. -/
def readLE (k : Nat) : ReadM Nat := do
  let bs ← readBytes k
  ReadM.pure (valLE bs)

/-- Reads a 1-byte data type tag, rejecting unknown tags. -/
def readDataType : ReadM DataType := do
  let t ← readLE 1
  match t with
  | 0 => ReadM.pure DataType.int
  | 1 => ReadM.pure DataType.str
  | _ => ReadM.fail CodecError.CorruptFormat

/-- Reads a 1-byte boolean, rejecting anything but 0 and 1. -/
def readBoolByte : ReadM Bool := do
  let b ← readLE 1
  match b with
  | 0 => ReadM.pure false
  | 1 => ReadM.pure true
  | _ => ReadM.fail CodecError.CorruptFormat

/-- Reads `n` records with the given reader. -/
def readN {α : Type} : Nat → ReadM α → ReadM (List α)
  | 0, _ => ReadM.pure []
  | n + 1, r => do
    let a ← r
    let as ← readN n r
    ReadM.pure (a :: as)

/-- Reads one typed value: a 4-byte two's-complement integer or a 2-byte
length-prefixed string. -/
def readValue : DataType → ReadM Value
  | DataType.int => do
    let n ← readLE 4
    ReadM.pure (Value.vInt (if n < 2147483648 then (n : Int) else (n : Int) - 4294967296))
  | DataType.str => do
    let l ← readLE 2
    let bs ← readBytes l
    ReadM.pure (Value.vStr (bs.map Char.ofNat))

/-- Reads the `l`-byte names given the already-read length array. -/
def readNames : List Nat → ReadM (List (List Char))
  | [] => ReadM.pure []
  | l :: ls => do
    let bs ← readBytes l
    let ns ← readNames ls
    ReadM.pure (bs.map Char.ofNat :: ns)

/-- Zips the three parallel header arrays back into column
definitions. -/
def zip3Defs : List (List Char) → List DataType → List Bool → List ColumnDefinition
  | n :: ns, t :: ts, b :: bs => ⟨n, t, b⟩ :: zip3Defs ns ts bs
  | _, _, _ => []

/-- Reads one column payload: the 1-byte encoding tag, then the
kind-specific payload.  A nullable value column's null flags are read
and any set flag is rejected (`UnsupportedNullValue`); an unknown
encoding tag or attribute-vector width is a corrupt-format error. -/
def readColumn (d : ColumnDefinition) (rows : Nat) : ReadM ColumnData := do
  let tag ← readLE 1
  match tag with
  | 0 => do
    let flags ← (if d.nullable then readBytes rows else ReadM.pure [])
    if flags.all (fun b => b = 0) then do
      let vs ← readN rows (readValue d.dataType)
      ReadM.pure (ColumnData.value vs)
    else ReadM.fail CodecError.UnsupportedNullValue
  | 1 => do
    let w ← readLE 1
    if w = 1 ∨ w = 2 ∨ w = 4 then do
      let dictSize ← readLE 4
      let dict ← readN dictSize (readValue d.dataType)
      let codes ← readN rows (readLE w)
      ReadM.pure (ColumnData.dictionary w dict codes)
    else ReadM.fail CodecError.CorruptFormat
  | _ => ReadM.fail CodecError.CorruptFormat

/-- Reads the columns of one chunk, in schema order. -/
def readColumns : List ColumnDefinition → Nat → ReadM (List ColumnData)
  | [], _ => ReadM.pure []
  | d :: ds, rows => do
    let c ← readColumn d rows
    let cs ← readColumns ds rows
    ReadM.pure (c :: cs)

/-- Reads one chunk: 4-byte row count, then the column payloads. -/
def readChunk (defs : List ColumnDefinition) : ReadM Chunk := do
  let rows ← readLE 4
  let cols ← readColumns defs rows
  ReadM.pure ⟨cols⟩

/-- Reads the partitioning header: scheme tag, partition count and the
scheme-specific payload (bound count = partition count − 1). -/
def readPartitioningHeader : ReadM (PartitionSchema × Nat) := do
  let tag ← readLE 1
  let pcount ← readLE 2
  match tag with
  | 0 => ReadM.pure (PartitionSchema.nullPartitioning, pcount)
  | 1 => ReadM.pure (PartitionSchema.roundRobin, pcount)
  | 2 => do
    let cid ← readLE 4
    let dt ← readDataType
    let bounds ← readN (pcount - 1) (readValue dt)
    ReadM.pure (PartitionSchema.range cid dt bounds, pcount)
  | 3 => do
    let cid ← readLE 4
    ReadM.pure (PartitionSchema.hash cid, pcount)
  | _ => ReadM.fail CodecError.CorruptFormat

/-- Reads one partition's chunk-id list. -/
def readPartition : ReadM (List Nat) := do
  let n ← readLE 4
  readN n (readLE 4)

/-- The table reader: mirrors `encodeTable` field by field. -/
def readTable : ReadM Table := do
  let chunkSize ← readLE 4
  let chunkCount ← readLE 4
  let colCount ← readLE 2
  let dts ← readN colCount readDataType
  let nbs ← readN colCount readBoolByte
  let lens ← readN colCount (readLE 1)
  let names ← readNames lens
  let defs := zip3Defs names dts nbs
  let sp ← readPartitioningHeader
  let parts ← readN sp.2 readPartition
  let chunks ← readN chunkCount (readChunk defs)
  ReadM.pure ⟨chunkSize, defs, sp.1, parts, chunks⟩

/-- Modelled from the spec (§4.4/§6/§7): `Decode` consumes the whole
stream and is all-or-nothing; trailing bytes are a corrupt stream. -/
def decode (bytes : List Nat) : Except CodecError Table :=
  match readTable bytes with
  | Except.ok (t, []) => Except.ok t
  | Except.ok _ => Except.error CodecError.CorruptFormat
  | Except.error e => Except.error e

/-- Machine-width well-formedness of one value: an `int` value fits the
signed 32-bit domain; a `str` value has a 16-bit length and byte-sized
characters. -/
def valueOk : DataType → Value → Bool
  | DataType.int, Value.vInt i => decide (-2147483648 ≤ i) && decide (i < 2147483648)
  | DataType.str, Value.vStr s =>
      decide (s.length < 65536) && s.all (fun ch => ch.toNat < 256)
  | _, _ => false

/-- Well-formedness of one stored column against its definition and its
chunk's row count. -/
def columnOk (d : ColumnDefinition) (rows : Nat) : ColumnData → Bool
  | ColumnData.value vs =>
      decide (vs.length = rows) && vs.all (valueOk d.dataType)
  | ColumnData.dictionary w dict codes =>
      (decide (w = 1) || decide (w = 2) || decide (w = 4)) &&
      decide (dict.length < 4294967296) && dict.all (valueOk d.dataType) &&
      decide (codes.length = rows) && codes.all (fun code => code < 256 ^ w)

/-- Well-formedness of one chunk: one column per table column, a 32-bit
row count, and every column well-formed with that row count. -/
def chunkOk (defs : List ColumnDefinition) (c : Chunk) : Bool :=
  decide (c.columns.length = defs.length) && decide (c.rowCount < 4294967296) &&
    (List.zip defs c.columns).all (fun pr => columnOk pr.1 c.rowCount pr.2)

/-- Well-formedness of the partitioning scheme state: 32-bit column
ids; a Range scheme has exactly partition count − 1 well-formed bounds
of its bound type. -/
def schemaOk (pcount : Nat) : PartitionSchema → Bool
  | PartitionSchema.nullPartitioning => true
  | PartitionSchema.roundRobin => true
  | PartitionSchema.range cid dt bounds =>
      decide (cid < 4294967296) && decide (bounds.length + 1 = pcount) &&
        bounds.all (valueOk dt)
  | PartitionSchema.hash cid => decide (cid < 4294967296)

/-- Well-formedness of a table with respect to the machine-integer
widths of the binary format: every count, id and length fits the field
that stores it. -/
def tableWF (t : Table) : Bool :=
  decide (t.chunkSize < 4294967296) && decide (t.chunks.length < 4294967296) &&
  decide (t.columnDefinitions.length < 65536) &&
  t.columnDefinitions.all (fun d =>
    decide (d.name.length < 256) && d.name.all (fun ch => ch.toNat < 256)) &&
  decide (t.partitions.length < 65536) && schemaOk t.partitions.length t.schema &&
  t.partitions.all (fun p => decide (p.length < 4294967296) &&
    p.all (fun i => i < 4294967296)) &&
  t.chunks.all (chunkOk t.columnDefinitions)

/-- A concrete two-column, range-partitioned table used to instantiate
the round trip. -/
def exampleTable : Table :=
  { chunkSize := 100,
    columnDefinitions :=
      [⟨"id".data, DataType.int, false⟩, ⟨"name".data, DataType.str, true⟩],
    schema := PartitionSchema.range 0 DataType.int [Value.vInt 10],
    partitions := [[0], [1]],
    chunks :=
      [⟨[ColumnData.value [Value.vInt 1, Value.vInt (-7)],
         ColumnData.dictionary 1 [Value.vStr "a".data, Value.vStr "bc".data] [1, 0]]⟩,
       ⟨[ColumnData.value [Value.vInt 2147483647],
         ColumnData.value [Value.vStr "xyz".data]]⟩] }

/- ### Binary export of reference columns (export_binary.hpp) -/

/-- A column as `ExportBinary`'s visitor dispatches on it: a value
column, a dictionary column, or a reference column carrying the
materialized values its position list resolves to. -/
inductive ExportColumn
  | valueColumn (nullable : Bool) (values : List Value)
  | dictionaryColumn (avWidth : Nat) (dict : List Value) (codes : List Nat)
  | referenceColumn (values : List Value)
  deriving DecidableEq

/-- Embedding of the `ExportBinary::ExportBinaryVisitor` handlers as
documented in export_binary.hpp:139-215: every column kind is dumped as
a byte payload; reference columns are dumped in a value-column-like
layout (column type byte, then the row values, no null flags — lines
166-186), they are not rejected. -/
def handle_column : ExportColumn → Except CodecError (List Nat)
  | ExportColumn.valueColumn nullable vs =>
      Except.ok (w8 0 ++ (if nullable then List.replicate vs.length 0 else []) ++
        (vs.map encValue).flatten)
  | ExportColumn.dictionaryColumn w dict codes =>
      Except.ok (w8 1 ++ w8 w ++ w32 dict.length ++ (dict.map encValue).flatten ++
        (codes.map (encWidth w)).flatten)
  | ExportColumn.referenceColumn vs =>
      Except.ok (w8 0 ++ (vs.map encValue).flatten)

/-- The visitor applied to every column of a chunk, concatenating the
payloads; the first error, if any, aborts the export. -/
def export_columns : List ExportColumn → Except CodecError (List Nat)
  | [] => Except.ok []
  | c :: cs =>
    match handle_column c with
    | Except.ok bs =>
      match export_columns cs with
      | Except.ok rest => Except.ok (bs ++ rest)
      | Except.error e => Except.error e
    | Except.error e => Except.error e

/- ### Theorems: the lexicographic order -/

/-- Totality of the lexicographic comparison. -/
theorem charListLe_total : ∀ a b : List Char, charListLe a b = true ∨ charListLe b a = true := by
  intro a
  induction a with
  | nil => intro b; left; rfl
  | cons x as ih =>
    intro b
    cases b with
    | nil => right; rfl
    | cons y bs =>
      simp only [charListLe]
      rcases Nat.lt_trichotomy x.toNat y.toNat with h | h | h
      · left; simp [h]
      · have h2 : ¬ x.toNat < y.toNat := by omega
        have h3 : ¬ y.toNat < x.toNat := by omega
        rcases ih bs with hc | hc
        · left; simp [h2, h3, hc]
        · right; simp [h2, h3, hc]
      · right; simp [h]

/-- Transitivity of the lexicographic comparison. -/
theorem charListLe_trans :
    ∀ a b c : List Char, charListLe a b = true → charListLe b c = true →
      charListLe a c = true := by
  intro a
  induction a with
  | nil => intro b c _ _; rfl
  | cons x as ih =>
    intro b c hab hbc
    cases b with
    | nil => simp [charListLe] at hab
    | cons y bs =>
      cases c with
      | nil => simp [charListLe] at hbc
      | cons z cs =>
        simp only [charListLe] at hab hbc ⊢
        by_cases hxy : x.toNat < y.toNat
        · by_cases hyz : y.toNat < z.toNat
          · simp [show x.toNat < z.toNat by omega]
          · by_cases hzy : z.toNat < y.toNat
            · simp [hyz, hzy] at hbc
            · simp [show x.toNat < z.toNat by omega]
        · by_cases hyx : y.toNat < x.toNat
          · simp [hxy, hyx] at hab
          · have hx : x.toNat = y.toNat := by omega
            by_cases hyz : y.toNat < z.toNat
            · simp [show x.toNat < z.toNat by omega]
            · by_cases hzy : z.toNat < y.toNat
              · simp [hyz, hzy] at hbc
              · have h2 : ¬ x.toNat < z.toNat := by omega
                have h3 : ¬ z.toNat < x.toNat := by omega
                simp only [hxy, hyx, if_false, if_neg h2, if_neg h3] at hab hbc ⊢
                simp only [if_neg hyz, if_neg hzy] at hbc
                exact ih bs cs hab hbc

/-- Antisymmetry of the lexicographic comparison. -/
theorem charListLe_antisymm :
    ∀ a b : List Char, charListLe a b = true → charListLe b a = true → a = b := by
  intro a
  induction a with
  | nil =>
    intro b _ hba
    cases b with
    | nil => rfl
    | cons y bs => simp [charListLe] at hba
  | cons x as ih =>
    intro b hab hba
    cases b with
    | nil => simp [charListLe] at hab
    | cons y bs =>
      simp only [charListLe] at hab hba
      by_cases hxy : x.toNat < y.toNat
      · exfalso
        rw [if_neg (by omega : ¬ y.toNat < x.toNat), if_pos hxy] at hba
        exact Bool.false_ne_true hba
      · by_cases hyx : y.toNat < x.toNat
        · simp [hxy, hyx] at hab
        · have hnat : x.toNat = y.toNat := by omega
          have hx : x = y :=
            Char.eq_of_val_eq (UInt32.eq_of_toBitVec_eq (BitVec.eq_of_toNat_eq hnat))
          rw [if_neg hxy, if_neg hyx] at hab
          rw [if_neg hyx, if_neg hxy] at hba
          rw [hx, ih bs hab hba]

/- ### Theorems: fixed-width string pool -/

/-- Bulk append in unchecked mode always succeeds and grows the pool by
one slot per input string, preserving `max_length`. -/
theorem pushList_unchecked_ok (ss : List String) :
    ∀ v : FixedStringVector, ∃ p : FixedStringVector,
      pushList PoolMode.unchecked v ss = Except.ok p ∧
      p.string_length = v.string_length ∧ p.strings.length = v.strings.length + ss.length := by
  induction ss with
  | nil => intro v; exact ⟨v, rfl, rfl, rfl⟩
  | cons s rest ih =>
    intro v
    by_cases h : s.length ≤ v.string_length
    · obtain ⟨p, hp, hl, hn⟩ := ih ⟨v.string_length, v.strings ++ [s]⟩
      refine ⟨p, ?_, hl, ?_⟩
      · simp only [pushList, FixedStringVector.push_back, if_pos h]
        exact hp
      · dsimp only at hn
        simp only [List.length_append, List.length_cons, List.length_nil] at hn ⊢
        omega
    · obtain ⟨p, hp, hl, hn⟩ := ih ⟨v.string_length, v.strings ++ [strTruncate s v.string_length]⟩
      refine ⟨p, ?_, hl, ?_⟩
      · simp only [pushList, FixedStringVector.push_back, if_neg h]
        exact hp
      · dsimp only at hn
        simp only [List.length_append, List.length_cons, List.length_nil] at hn ⊢
        omega

/-- C4: with `max_length = 6`, after appending `"abc"` and `"string"` the
pool has size 2; in checked mode a further append of `"opossum"` (7
characters) fails with `CapacityExceeded`, leaving the pool at size 2
with both slots unchanged; in unchecked mode the same append succeeds,
the size becomes 3 and slot 2 holds the truncated string `"opossu"`. -/
theorem fixedstring_pool_truncation_contract :
    pushList PoolMode.checked (emptyPool 6) ["abc", "string"] =
      Except.ok (⟨6, ["abc", "string"]⟩ : FixedStringVector) ∧
    (⟨6, ["abc", "string"]⟩ : FixedStringVector).size = 2 ∧
    FixedStringVector.push_back PoolMode.checked ⟨6, ["abc", "string"]⟩ "opossum" =
      Except.error PoolError.CapacityExceeded ∧
    FixedStringVector.at' ⟨6, ["abc", "string"]⟩ 0 = "abc" ∧
    FixedStringVector.at' ⟨6, ["abc", "string"]⟩ 1 = "string" ∧
    FixedStringVector.push_back PoolMode.unchecked ⟨6, ["abc", "string"]⟩ "opossum" =
      Except.ok (⟨6, ["abc", "string", "opossu"]⟩ : FixedStringVector) ∧
    (⟨6, ["abc", "string", "opossu"]⟩ : FixedStringVector).size = 3 ∧
    FixedStringVector.at' ⟨6, ["abc", "string", "opossu"]⟩ 2 = "opossu" :=
  ⟨rfl, by decide, rfl, by decide, by decide, rfl, by decide, by decide⟩

/-- C5 counterexample: the pool built by appending `"str1"` and `"str2"`
with `max_length = 4` reports `data_size() = 48` (as the `DataSize` test
asserts), not `size() * max_length = 8` as the claim states. -/
theorem data_size_counterexample :
    pushList PoolMode.unchecked (emptyPool 4) ["str1", "str2"] =
      Except.ok (⟨4, ["str1", "str2"]⟩ : FixedStringVector) ∧
    (⟨4, ["str1", "str2"]⟩ : FixedStringVector).data_size = 48 ∧
    ¬ ((⟨4, ["str1", "str2"]⟩ : FixedStringVector).data_size =
        (⟨4, ["str1", "str2"]⟩ : FixedStringVector).size *
          (⟨4, ["str1", "str2"]⟩ : FixedStringVector).string_length) :=
  ⟨rfl, by decide, by decide⟩

/-- C5 amended: `data_size()` equals a fixed 40-byte object overhead plus
`size() * max_length`; in particular the pool with `max_length = 4`
holding 2 entries reports `data_size() == 48`, and every pool reachable
by bulk unchecked appends satisfies the amended formula. -/
theorem data_size_formula :
    ((⟨4, ["str1", "str2"]⟩ : FixedStringVector).data_size = 48) ∧
    ∀ (maxLength : Nat) (ss : List String) (p : FixedStringVector),
      pushList PoolMode.unchecked (emptyPool maxLength) ss = Except.ok p →
      p.data_size = fixedStringVectorObjectBytes + ss.length * maxLength := by
  refine ⟨by decide, ?_⟩
  intro maxLength ss p hp
  obtain ⟨q, hq, hl, hn⟩ := pushList_unchecked_ok ss (emptyPool maxLength)
  rw [hq] at hp
  injection hp with h
  subst h
  simp [FixedStringVector.data_size, FixedStringVector.size, hn, hl, emptyPool]

/-- C5 amended witness: the formula applied to the concrete pool of the
`DataSize` test. -/
theorem data_size_formula_witness :
    ∃ p : FixedStringVector,
      pushList PoolMode.unchecked (emptyPool 4) ["str1", "str2"] = Except.ok p ∧
      p.data_size = fixedStringVectorObjectBytes + 2 * 4 :=
  ⟨⟨4, ["str1", "str2"]⟩, rfl,
    data_size_formula.2 4 ["str1", "str2"] ⟨4, ["str1", "str2"]⟩ rfl⟩

/- ### Theorems: dictionary encoding -/

/-- Permutation invariance of dictionary construction: the sorted
de-duplicated dictionary only depends on the multiset of input values. -/
theorem dictionary_of_perm {l₁ l₂ : List String} (h : l₁.Perm l₂) :
    dictionary_of l₁ = dictionary_of l₂ := by
  haveI htot : IsTotal String (fun a b => strLe a b = true) :=
    ⟨fun a b => charListLe_total a.data b.data⟩
  haveI htrans : IsTrans String (fun a b => strLe a b = true) :=
    ⟨fun a b c => charListLe_trans a.data b.data c.data⟩
  haveI hanti : IsAntisymm String (fun a b => strLe a b = true) :=
    ⟨fun a b hab hba => String.ext (charListLe_antisymm a.data b.data hab hba)⟩
  unfold dictionary_of
  exact @List.eq_of_perm_of_sorted String (fun a b => strLe a b = true) hanti _ _
    ((List.perm_insertionSort _ _).trans (h.dedup.trans (List.perm_insertionSort _ _).symm))
    (List.sorted_insertionSort _ _) (List.sorted_insertionSort _ _)

/-- C2: encoding `["Bill","Steve","Alexander","Steve","Hasso","Bill"]`
yields the sorted dictionary `["Alexander","Bill","Hasso","Steve"]` with
exactly 4 unique values while the encoded column keeps its 6 rows, and
the dictionary is the same for any permutation of the input values. -/
theorem dictionary_sortedness_and_dedup :
    dictionary_of ["Bill", "Steve", "Alexander", "Steve", "Hasso", "Bill"] =
      ["Alexander", "Bill", "Hasso", "Steve"] ∧
    unique_values_count ["Bill", "Steve", "Alexander", "Steve", "Hasso", "Bill"] = 4 ∧
    (attribute_vector_of ["Bill", "Steve", "Alexander", "Steve", "Hasso", "Bill"]).length = 6 ∧
    ∀ other : List String,
      other.Perm ["Bill", "Steve", "Alexander", "Steve", "Hasso", "Bill"] →
      dictionary_of other =
        dictionary_of ["Bill", "Steve", "Alexander", "Steve", "Hasso", "Bill"] := by
  refine ⟨by decide, by decide, by decide, ?_⟩
  intro other h
  exact dictionary_of_perm h

/-- C2 witness: a concrete permutation of the test input produces the
same dictionary. -/
theorem dictionary_sortedness_and_dedup_witness :
    dictionary_of ["Steve", "Bill", "Hasso", "Alexander", "Bill", "Steve"] =
      dictionary_of ["Bill", "Steve", "Alexander", "Steve", "Hasso", "Bill"] :=
  dictionary_sortedness_and_dedup.2.2.2
    ["Steve", "Bill", "Hasso", "Alexander", "Bill", "Steve"] (by decide)

/-- When no entry satisfies the predicate, `bound_search` returns the
invalid sentinel. -/
theorem bound_search_eq_invalid (p : String → Bool) (l : List String)
    (h : ∀ s ∈ l, p s = false) : ∀ k, bound_search p l k = INVALID_VALUE_ID := by
  induction l with
  | nil => intro k; rfl
  | cons s rest ih =>
    intro k
    have hs : p s = false := h s (by simp)
    simp only [bound_search, hs, Bool.false_eq_true, if_false]
    exact ih (fun x hx => h x (by simp [hx])) (k + 1)

/-- When `i` is the first index whose entry satisfies the predicate,
`bound_search` started at accumulator `k` returns `k + i`. -/
theorem bound_search_eq_first (p : String → Bool) :
    ∀ (l : List String) (i k : Nat), i < l.length → p (l.getD i "") = true →
      (∀ j, j < i → p (l.getD j "") = false) → bound_search p l k = k + i := by
  intro l
  induction l with
  | nil => intro i k hi; exact absurd hi (by simp)
  | cons s rest ih =>
    intro i k hi hp hmin
    match i with
    | 0 =>
      simp only [List.getD_cons_zero] at hp
      simp [bound_search, hp]
    | Nat.succ i' =>
      have hs : p s = false := by
        have := hmin 0 (Nat.succ_pos i')
        simpa using this
      simp only [bound_search, hs, Bool.false_eq_true, if_false]
      have := ih i' (k + 1) (by simpa using Nat.lt_of_succ_lt_succ hi)
        (by simpa using hp)
        (fun j hj => by simpa using hmin (j + 1) (Nat.succ_lt_succ hj))
      rw [this]
      omega

/-- C3: for the dictionary `["A","C","E","G","I","K"]` the bound lookups
return `lower_bound("E") = 2`, `upper_bound("E") = 3`,
`lower_bound("F") = upper_bound("F") = 3` and
`lower_bound("Z") = upper_bound("Z") = INVALID_VALUE_ID`; in general
`lower_bound` (resp. `upper_bound`) returns the smallest id whose value
is `≥ probe` (resp. `> probe`) and the invalid sentinel when no such id
exists. -/
theorem binary_search_bounds :
    lower_bound ["A", "C", "E", "G", "I", "K"] "E" = 2 ∧
    upper_bound ["A", "C", "E", "G", "I", "K"] "E" = 3 ∧
    lower_bound ["A", "C", "E", "G", "I", "K"] "F" = 3 ∧
    upper_bound ["A", "C", "E", "G", "I", "K"] "F" = 3 ∧
    lower_bound ["A", "C", "E", "G", "I", "K"] "Z" = INVALID_VALUE_ID ∧
    upper_bound ["A", "C", "E", "G", "I", "K"] "Z" = INVALID_VALUE_ID ∧
    (∀ (dict : List String) (probe : String) (i : Nat),
      i < dict.length → strLe probe (dict.getD i "") = true →
      (∀ j, j < i → strLe probe (dict.getD j "") = false) → lower_bound dict probe = i) ∧
    (∀ (dict : List String) (probe : String),
      (∀ s ∈ dict, strLe probe s = false) → lower_bound dict probe = INVALID_VALUE_ID) ∧
    (∀ (dict : List String) (probe : String) (i : Nat),
      i < dict.length → strLt probe (dict.getD i "") = true →
      (∀ j, j < i → strLt probe (dict.getD j "") = false) → upper_bound dict probe = i) ∧
    (∀ (dict : List String) (probe : String),
      (∀ s ∈ dict, strLt probe s = false) → upper_bound dict probe = INVALID_VALUE_ID) := by
  refine ⟨by decide, by decide, by decide, by decide, by decide, by decide, ?_, ?_, ?_, ?_⟩
  · intro dict probe i hi hp hmin
    have := bound_search_eq_first (fun s => strLe probe s) dict i 0 hi hp hmin
    simpa [lower_bound] using this
  · intro dict probe h
    exact bound_search_eq_invalid _ _ h 0
  · intro dict probe i hi hp hmin
    have := bound_search_eq_first (fun s => strLt probe s) dict i 0 hi hp hmin
    simpa [upper_bound] using this
  · intro dict probe h
    exact bound_search_eq_invalid _ _ h 0

/-- C3 witness: the general bound characterisations applied to the
concrete dictionary of the test. -/
theorem binary_search_bounds_witness :
    lower_bound ["A", "C", "E", "G", "I", "K"] "E" = 2 ∧
    upper_bound ["A", "C", "E", "G", "I", "K"] "Z" = INVALID_VALUE_ID :=
  ⟨binary_search_bounds.2.2.2.2.2.2.1 ["A", "C", "E", "G", "I", "K"] "E" 2
      (by decide) (by decide) (by decide),
    binary_search_bounds.2.2.2.2.2.2.2.2.2 ["A", "C", "E", "G", "I", "K"] "Z"
      (by decide)⟩

/- ### Theorems: clone dictionary uniqueness defect (C8) -/

/-- C8: the dictionary observed through the `copy_using_allocator` clone
(as asserted by the `CopyUsingAlloctor` test) exposes four accessible
entries with `"Steve"` repeated, so it is neither duplicate-free nor
equal to the sorted unique dictionary of the encoded input — the strict
uniqueness invariant is violated by the cloning path. -/
theorem copy_using_allocator_duplicate_defect :
    ¬ copy_using_allocator_observed_dictionary.Nodup ∧
    copy_using_allocator_observed_dictionary ≠ dictionary_of ["Bill", "Steve", "Alexander"] ∧
    copy_using_allocator_observed_dictionary.length ≠
      unique_values_count ["Bill", "Steve", "Alexander"] := by
  refine ⟨by decide, by decide, by decide⟩

/- ### Theorems: row-hash function (C9) -/

/-- C9: the row-hash function is a total function on the variant domain
including null: it maps the null value to 0, any typed value to the
`std::hash` instantiation of its type applied to the value, equal inputs
always produce equal hashes, and any two null values hash equal. -/
theorem hash_function_null_and_typed :
    (∀ (F : TypeTag → Type) (stdHash : ∀ t, F t → Nat),
      HashFunction F stdHash AllTypeVariant.nullValue = 0) ∧
    (∀ (F : TypeTag → Type) (stdHash : ∀ t, F t → Nat) (t : TypeTag) (x : F t),
      HashFunction F stdHash (AllTypeVariant.typed t x) = stdHash t x) ∧
    (∀ (F : TypeTag → Type) (stdHash : ∀ t, F t → Nat) (v w : AllTypeVariant F),
      v = w → HashFunction F stdHash v = HashFunction F stdHash w) ∧
    (∀ (F : TypeTag → Type) (stdHash : ∀ t, F t → Nat) (v w : AllTypeVariant F),
      v = AllTypeVariant.nullValue → w = AllTypeVariant.nullValue →
      HashFunction F stdHash v = HashFunction F stdHash w) :=
  ⟨fun _ _ => rfl, fun _ _ _ _ => rfl, fun _ _ _ _ h => by rw [h],
    fun _ _ _ _ hv hw => by rw [hv, hw]⟩

/-- C9 witness: two null values hash equal under a concrete hash
family. -/
theorem hash_function_null_and_typed_witness :
    HashFunction (fun _ => Nat) (fun _ n => n) AllTypeVariant.nullValue =
      HashFunction (fun _ => Nat) (fun _ n => n) AllTypeVariant.nullValue :=
  hash_function_null_and_typed.2.2.2 (fun _ => Nat) (fun _ n => n)
    AllTypeVariant.nullValue AllTypeVariant.nullValue rfl rfl

/- ### Theorems: Difference row serialization -/

/-- Injectivity of the character code map. -/
theorem char_toNat_injective : Function.Injective Char.toNat := fun _ _ h =>
  Char.eq_of_val_eq (UInt32.eq_of_toBitVec_eq (BitVec.eq_of_toNat_eq h))

/-- Folding the row buffer equals joining the per-field
representations. -/
theorem row_representation_eq_join {V : Type} (cast : V → List Char) (r : List V) :
    row_representation cast r = ((r.map cast).map field_representation).flatten := by
  suffices h : ∀ (r : List V) (acc : List Nat),
      r.foldl (fun buf v => append_string_representation buf (cast v)) acc =
        acc ++ ((r.map cast).map field_representation).flatten by
    simpa using h r []
  intro r
  induction r with
  | nil => intro acc; simp
  | cons v rest ih =>
    intro acc
    rw [List.foldl_cons, ih]
    simp [append_string_representation, List.append_assoc]

/-- The four length bytes determine the length below `2^32`. -/
theorem lenBytes_inj {n m : Nat} (hn : n < 4294967296) (hm : m < 4294967296)
    (h : lenBytes n = lenBytes m) : n = m := by
  unfold lenBytes at h
  injection h with h1 h
  injection h with h2 h
  injection h with h3 h
  injection h with h4 h
  omega

/-- Mapping after filtering on the composed predicate equals filtering
the mapped list. -/
theorem filter_map_comm {α β : Type} (f : α → β) (p : β → Bool) :
    ∀ l : List α, (l.filter (fun a => p (f a))).map f = (l.map f).filter p := by
  intro l
  induction l with
  | nil => rfl
  | cons a rest ih =>
    by_cases h : p (f a)
    · simp [List.filter_cons, h, ih]
    · simp [List.filter_cons, h, ih]

/-- Joining per-chunk filters equals filtering the joined list. -/
theorem join_filter_comm {α : Type} (p : α → Bool) :
    ∀ ls : List (List α), (ls.map (List.filter p)).flatten = ls.flatten.filter p := by
  intro ls
  induction ls with
  | nil => rfl
  | cons x rest ih =>
    rw [List.map_cons, List.flatten_cons, List.flatten_cons, List.filter_append, ih]

/-- The concatenated field representations of a row determine its
fields: the stream is decoded from its end, four length bytes at a
time. -/
theorem fields_repr_inj :
    ∀ a b : List (List Char),
      (∀ s ∈ a, s.length < 4294967296) → (∀ s ∈ b, s.length < 4294967296) →
      (a.map field_representation).flatten = (b.map field_representation).flatten → a = b := by
  intro a
  induction a using List.reverseRecOn with
  | nil =>
    intro b _ hb h
    induction b using List.reverseRecOn with
    | nil => rfl
    | append_singleton bs t _ =>
      exfalso
      have hlen := congrArg List.length h
      simp only [List.map_append, List.map_cons, List.map_nil, List.flatten_append,
        List.flatten_cons, List.flatten_nil, List.append_nil, List.length_append, List.length_nil,
        List.length_map, field_representation, lenBytes, List.length_cons] at hlen
      omega
  | append_singleton as s iha =>
    intro b ha hb h
    induction b using List.reverseRecOn with
    | nil =>
      exfalso
      have hlen := congrArg List.length h
      simp only [List.map_append, List.map_cons, List.map_nil, List.flatten_append,
        List.flatten_cons, List.flatten_nil, List.append_nil, List.length_append, List.length_nil,
        List.length_map, field_representation, lenBytes, List.length_cons] at hlen
      omega
    | append_singleton bs t _ =>
      simp only [List.map_append, List.map_cons, List.map_nil, List.flatten_append,
        List.flatten_cons, List.flatten_nil, List.append_nil] at h
      simp only [field_representation] at h
      rw [← List.append_assoc, ← List.append_assoc] at h
      obtain ⟨h1, h2⟩ := List.append_inj' h (by simp [lenBytes])
      have hst : s.length = t.length :=
        lenBytes_inj (ha s (by simp)) (hb t (by simp)) h2
      obtain ⟨hjoin, hmap⟩ := List.append_inj' h1 (by simp [hst])
      have hs : s = t := List.map_injective_iff.mpr char_toNat_injective hmap
      have has : as = bs := iha bs (fun x hx => ha x (by simp [hx]))
        (fun x hx => hb x (by simp [hx])) hjoin
      rw [has, hs]

/-- The row representation is injective on rows when the per-value cast
is injective and every cast string is shorter than `2^32`. -/
theorem row_representation_injective {V : Type} (cast : V → List Char)
    (hinj : Function.Injective cast) (hlen : ∀ v, (cast v).length < 4294967296)
    {r₁ r₂ : List V} (h : row_representation cast r₁ = row_representation cast r₂) :
    r₁ = r₂ := by
  rw [row_representation_eq_join, row_representation_eq_join] at h
  have hfields := fields_repr_inj (r₁.map cast) (r₂.map cast)
    (fun s hs => by obtain ⟨v, _, rfl⟩ := List.mem_map.mp hs; exact hlen v)
    (fun s hs => by obtain ⟨v, _, rfl⟩ := List.mem_map.mp hs; exact hlen v) h
  exact List.map_injective_iff.mpr hinj hfields

/-- The surviving rows of one chunk are exactly the chunk's rows whose
value tuple appears in no right-input row. -/
theorem surviving_offsets_map {V : Type} [DecidableEq V] (cast : V → List Char) (dflt : V)
    (hinj : Function.Injective cast) (hlen : ∀ v, (cast v).length < 4294967296)
    (right : List (InChunk V)) (c : InChunk V) :
    (surviving_offsets cast dflt (right_input_row_set cast dflt right) c).map (chunkRow dflt c) =
      ((List.range (chunkSize c)).map (chunkRow dflt c)).filter
        (fun r => !(decide (r ∈ tableRows dflt right))) := by
  have h1 := filter_map_comm (chunkRow dflt c)
    (fun r => !(decide (row_representation cast r ∈ right_input_row_set cast dflt right)))
    (List.range (chunkSize c))
  refine h1.trans (List.filter_congr ?_)
  intro r _
  congr 1
  rw [decide_eq_decide]
  unfold right_input_row_set
  constructor
  · intro hmem
    obtain ⟨r', hr', heq⟩ := List.mem_map.mp hmem
    have : r' = r := row_representation_injective cast hinj hlen heq
    rwa [this] at hr'
  · exact fun hmem => List.mem_map_of_mem _ hmem

/- ### Theorems: Difference semantics (C7) -/

/-- The materialized Difference output equals the left rows whose value
tuple matches no right row (generic over the value domain, for any
injective `type_cast` whose strings are shorter than the `uint32_t`
length domain). -/
theorem difference_output_rows_eq_filter {V : Type} [DecidableEq V]
    (cast : V → List Char) (dflt : V)
    (hinj : Function.Injective cast) (hlen : ∀ v, (cast v).length < 4294967296)
    (left right : List (InChunk V)) :
    difference_output_rows cast dflt left right =
      (tableRows dflt left).filter (fun r => !(decide (r ∈ tableRows dflt right))) := by
  unfold difference_output_rows
  have h1 : left.map (fun c =>
      (surviving_offsets cast dflt (right_input_row_set cast dflt right) c).map
        (chunkRow dflt c)) =
      left.map (fun c =>
        ((List.range (chunkSize c)).map (chunkRow dflt c)).filter
          (fun r => !(decide (r ∈ tableRows dflt right)))) :=
    List.map_congr_left (fun c _ => surviving_offsets_map cast dflt hinj hlen right c)
  rw [h1]
  have h2 : left.map (fun c =>
      ((List.range (chunkSize c)).map (chunkRow dflt c)).filter
        (fun r => !(decide (r ∈ tableRows dflt right)))) =
      (left.map (fun c => (List.range (chunkSize c)).map (chunkRow dflt c))).map
        (List.filter (fun r => !(decide (r ∈ tableRows dflt right)))) := by
    rw [List.map_map]
    rfl
  rw [h2, join_filter_comm]
  rfl

/-- C7: the Difference of left rows `[(1,"a"), (2,"b"), (2,"b")]` and
right rows `[(2,"b")]` keeps exactly the row `(1,"a")` (one output chunk
whose two reference columns point at left position (0,0)); in general a
left row is kept, with its duplicates, exactly when its full value tuple
equals no right row's tuple, for any injective value serialization with
lengths below `2^32`. -/
theorem difference_row_set_semantics :
    difference type_cast_string (DiffValue.vInt 0) [] exampleDifferenceLeft
      exampleDifferenceRight = [[⟨none, [(0, 0)]⟩, ⟨none, [(0, 0)]⟩]] ∧
    difference_output_rows type_cast_string (DiffValue.vInt 0) exampleDifferenceLeft
      exampleDifferenceRight = [[DiffValue.vInt 1, DiffValue.vStr ['a']]] ∧
    ∀ (V : Type) [DecidableEq V] (cast : V → List Char) (dflt : V),
      Function.Injective cast → (∀ v, (cast v).length < 4294967296) →
      ∀ left right : List (InChunk V),
        difference_output_rows cast dflt left right =
          (tableRows dflt left).filter (fun r => !(decide (r ∈ tableRows dflt right))) := by
  refine ⟨by decide, by decide, ?_⟩
  intro V _ cast dflt hinj hlen left right
  exact difference_output_rows_eq_filter cast dflt hinj hlen left right

/-- C7 witness: the generic set-membership semantics applied at a
concrete injective cast and concrete inputs. -/
theorem difference_row_set_semantics_witness :
    difference_output_rows witnessBoolCast false witnessBoolLeft witnessBoolRight =
      (tableRows false witnessBoolLeft).filter
        (fun r => !(decide (r ∈ tableRows false witnessBoolRight))) :=
  difference_row_set_semantics.2.2 Bool witnessBoolCast false
    (fun a b h => by
      cases a <;> cases b <;> first | rfl | exact absurd h (by decide))
    (by decide) witnessBoolLeft witnessBoolRight

/- ### Theorems: Difference output chunk structure (C10) -/

/-- Every column of a kept chunk carries the shared position list of its
input position-list key. -/
theorem out_chunk_columns_posList {V : Type} (posLists : List (List RowID))
    (chunkId : Nat) (c : InChunk V) (surv : List Nat) :
    ∀ col ∈ out_chunk_columns posLists chunkId c surv,
      col.posList = surv.map (entry_for posLists chunkId col.posId) := by
  intro col hcol
  obtain ⟨x, _, rfl⟩ := List.mem_map.mp hcol
  rfl

/-- A chunk is kept by the Difference only when it has columns and at
least one surviving offset, and then its columns are the shared-list
reference columns over the survivors. -/
theorem difference_chunk_some {V : Type} (cast : V → List Char) (dflt : V)
    (posLists : List (List RowID)) (rightSet : List (List Nat)) (chunkId : Nat)
    (c : InChunk V) (chunk : List OutCol)
    (h : difference_chunk cast dflt posLists rightSet chunkId c = some chunk) :
    chunk = out_chunk_columns posLists chunkId c (surviving_offsets cast dflt rightSet c) ∧
    chunk ≠ [] ∧
    0 < (surviving_offsets cast dflt rightSet c).length := by
  unfold difference_chunk at h
  dsimp only at h
  split at h
  · exact absurd h (by simp)
  · rename_i oc rest heq
    split at h
    · rename_i hguard
      injection h with h
      subst h
      refine ⟨heq.symm, by simp, ?_⟩
      cases hc : c.cols with
      | nil => rw [out_chunk_columns, hc] at heq; simp at heq
      | cons col cols =>
        rw [out_chunk_columns, hc, List.map_cons] at heq
        injection heq with h1 h2
        rw [← h1] at hguard
        simpa using hguard
    · exact absurd h (by simp)

/-- C10: no chunk of the Difference output is empty: every kept chunk
has at least one column and every column at least one row; all columns
of a chunk report the same row count, and columns that stem from the
same input position list share a single output position list. -/
theorem difference_no_empty_chunks :
    ∀ {V : Type} (cast : V → List Char) (dflt : V) (posLists : List (List RowID))
      (left right : List (InChunk V)) (chunk : List OutCol),
      chunk ∈ difference cast dflt posLists left right →
      chunk ≠ [] ∧
      (∀ col ∈ chunk, 0 < col.posList.length) ∧
      (∀ c₁ ∈ chunk, ∀ c₂ ∈ chunk,
        c₁.posList.length = c₂.posList.length ∧
        (c₁.posId = c₂.posId → c₁.posList = c₂.posList)) := by
  intro V cast dflt posLists left right chunk hmem
  unfold difference at hmem
  obtain ⟨ic, _, hf⟩ := List.mem_filterMap.mp hmem
  obtain ⟨hchunk, hne, hpos⟩ :=
    difference_chunk_some cast dflt posLists (right_input_row_set cast dflt right)
      ic.1 ic.2 chunk hf
  refine ⟨hne, ?_, ?_⟩
  · intro col hcol
    have := out_chunk_columns_posList posLists ic.1 ic.2 _ col (hchunk ▸ hcol)
    rw [this, List.length_map]
    exact hpos
  · intro c₁ h₁ c₂ h₂
    have e₁ := out_chunk_columns_posList posLists ic.1 ic.2 _ c₁ (hchunk ▸ h₁)
    have e₂ := out_chunk_columns_posList posLists ic.1 ic.2 _ c₂ (hchunk ▸ h₂)
    constructor
    · rw [e₁, e₂, List.length_map, List.length_map]
    · intro hid
      rw [e₁, e₂, hid]

/-- C10 witness: the structural guarantees applied to the concrete
Difference example output chunk. -/
theorem difference_no_empty_chunks_witness :
    ([⟨none, [(0, 0)]⟩, ⟨none, [(0, 0)]⟩] : List OutCol) ≠ [] ∧
    0 < (⟨none, [(0, 0)]⟩ : OutCol).posList.length :=
  ⟨(difference_no_empty_chunks type_cast_string (DiffValue.vInt 0) []
      exampleDifferenceLeft exampleDifferenceRight
      [⟨none, [(0, 0)]⟩, ⟨none, [(0, 0)]⟩] (by decide)).1,
    (difference_no_empty_chunks type_cast_string (DiffValue.vInt 0) []
      exampleDifferenceLeft exampleDifferenceRight
      [⟨none, [(0, 0)]⟩, ⟨none, [(0, 0)]⟩] (by decide)).2.1
      ⟨none, [(0, 0)]⟩ (by decide)⟩

/- ### Theorems: codec reader/writer round trip -/

/-- Sequencing a reader that succeeds runs the continuation on the
remainder. -/
theorem bind_ok {α β : Type} {m : ReadM α} {f : α → ReadM β} {s s2 : List Nat} {a : α}
    (h : m s = Except.ok (a, s2)) : (m >>= f) s = f a s2 := by
  show ReadM.bind m f s = f a s2
  unfold ReadM.bind
  rw [h]

/-- Two successful reader steps compose. -/
theorem seq_ok {α β : Type} {m : ReadM α} {f : α → ReadM β} {s s2 s3 : List Nat} {a : α}
    {b : β} (h1 : m s = Except.ok (a, s2)) (h2 : f a s2 = Except.ok (b, s3)) :
    (m >>= f) s = Except.ok (b, s3) := (bind_ok h1).trans h2

/-- Reading exactly the bytes written leaves the remainder. -/
theorem run_readBytes : ∀ (bs rest : List Nat),
    readBytes bs.length (bs ++ rest) = Except.ok (bs, rest) := by
  intro bs
  induction bs with
  | nil => intro rest; rfl
  | cons b bs ih =>
    intro rest
    have h1 : (readByte >>= fun x => readBytes bs.length >>= fun xs => ReadM.pure (x :: xs))
        ((b :: bs) ++ rest) =
        (readBytes bs.length >>= fun xs => ReadM.pure (b :: xs)) (bs ++ rest) := bind_ok rfl
    have h2 : (readBytes bs.length >>= fun xs => ReadM.pure (b :: xs)) (bs ++ rest) =
        Except.ok (b :: bs, rest) := bind_ok (ih rest)
    exact h1.trans h2

/-- Variant of `run_readBytes` with the byte count given abstractly. -/
theorem run_readBytes2 {n : Nat} {bs : List Nat} (h : bs.length = n) (rest : List Nat) :
    readBytes n (bs ++ rest) = Except.ok (bs, rest) := h ▸ run_readBytes bs rest

/-- Writing a `w`-byte field produces exactly `w` bytes. -/
theorem encWidth_length : ∀ (w n : Nat), (encWidth w n).length = w := by
  intro w
  induction w with
  | zero => intro n; rfl
  | succ w ih => intro n; simp [encWidth, ih]

/-- The little-endian value of the bytes of `n` is `n`, below the width
bound. -/
theorem valLE_encWidth : ∀ (w n : Nat), n < 256 ^ w → valLE (encWidth w n) = n := by
  intro w
  induction w with
  | zero =>
    intro n h
    simp [Nat.pow_zero] at h
    simp [encWidth, valLE, h]
  | succ w ih =>
    intro n h
    have hdiv : n / 256 < 256 ^ w := by
      rw [Nat.div_lt_iff_lt_mul (by norm_num : 0 < 256)]
      calc n < 256 ^ (w + 1) := h
        _ = 256 ^ w * 256 := by rw [Nat.pow_succ]
    simp only [encWidth, valLE, ih (n / 256) hdiv]
    omega

/-- Reading a `k`-byte little-endian field recovers the written value. -/
theorem run_readLE {k n : Nat} (h : n < 256 ^ k) (rest : List Nat) :
    readLE k (encWidth k n ++ rest) = Except.ok (n, rest) := by
  have h1 : readBytes k (encWidth k n ++ rest) = Except.ok (encWidth k n, rest) :=
    run_readBytes2 (encWidth_length k n) rest
  exact seq_ok h1 (by rw [valLE_encWidth k n h]; rfl)

/-- Reading `n` records after writing `n` recovers the list, when each
record round trips at any position. -/
theorem run_readN {α : Type} (r : ReadM α) (enc : α → List Nat) :
    ∀ (xs : List α), (∀ x ∈ xs, ∀ rest2, r (enc x ++ rest2) = Except.ok (x, rest2)) →
    ∀ rest, readN xs.length r ((xs.map enc).flatten ++ rest) = Except.ok (xs, rest) := by
  intro xs
  induction xs with
  | nil => intro _ rest; rfl
  | cons x xs ih =>
    intro h rest
    have hx := h x (by simp) (((xs.map enc).flatten) ++ rest)
    have hxs := ih (fun y hy => h y (by simp [hy])) rest
    have h1 : (r >>= fun a => readN xs.length r >>= fun as => ReadM.pure (a :: as))
        ((enc x ++ (xs.map enc).flatten) ++ rest) = Except.ok (x :: xs, rest) := by
      rw [List.append_assoc]
      exact seq_ok hx (seq_ok hxs rfl)
    exact h1

/-- Characters survive the byte round trip. -/
theorem map_ofNat_toNat : ∀ s : List Char, (s.map Char.toNat).map Char.ofNat = s := by
  intro s
  induction s with
  | nil => rfl
  | cons c s ih => simp [ih, Char.ofNat_toNat]

/-- A well-formed value round trips through its serialized form. -/
theorem run_readValue {dt : DataType} {v : Value} (h : valueOk dt v = true) (rest : List Nat) :
    readValue dt (encValue v ++ rest) = Except.ok (v, rest) := by
  cases dt with
  | int =>
    cases v with
    | vStr s => simp [valueOk] at h
    | vInt i =>
      simp only [valueOk, Bool.and_eq_true, decide_eq_true_eq] at h
      have hlt : (i % 4294967296).toNat < 256 ^ 4 := by
        have : (256 : Nat) ^ 4 = 4294967296 := by norm_num
        rw [this]
        omega
      refine seq_ok (run_readLE hlt rest) ?_
      have hval : (if (i % 4294967296).toNat < 2147483648
          then ((i % 4294967296).toNat : Int)
          else ((i % 4294967296).toNat : Int) - 4294967296) = i := by
        split <;> omega
      show ReadM.pure (Value.vInt _) rest = _
      rw [hval]
      rfl
  | str =>
    cases v with
    | vInt i => simp [valueOk] at h
    | vStr s =>
      simp only [valueOk, Bool.and_eq_true, decide_eq_true_eq] at h
      have hlt : s.length < 256 ^ 2 := by
        have : (256 : Nat) ^ 2 = 65536 := by norm_num
        rw [this]
        exact h.1
      show readValue DataType.str ((w16 s.length ++ s.map Char.toNat) ++ rest) = _
      rw [List.append_assoc]
      refine seq_ok (run_readLE hlt (s.map Char.toNat ++ rest)) ?_
      refine seq_ok (run_readBytes2 (List.length_map s Char.toNat) rest) ?_
      show ReadM.pure (Value.vStr ((s.map Char.toNat).map Char.ofNat)) rest = _
      rw [map_ofNat_toNat]
      rfl

/-- A data-type tag round trips. -/
theorem run_readDataType (dt : DataType) (rest : List Nat) :
    readDataType (w8 (typeTag dt) ++ rest) = Except.ok (dt, rest) := by
  cases dt with
  | int => exact seq_ok (run_readLE (by decide) rest) rfl
  | str => exact seq_ok (run_readLE (by decide) rest) rfl

/-- A nullability byte round trips. -/
theorem run_readBoolByte (b : Bool) (rest : List Nat) :
    readBoolByte (w8 (if b then 1 else 0) ++ rest) = Except.ok (b, rest) := by
  cases b with
  | false => exact seq_ok (run_readLE (by decide) rest) rfl
  | true => exact seq_ok (run_readLE (by decide) rest) rfl

/-- All null flags written for a null-free column are zero. -/
theorem replicate_all_zero : ∀ n : Nat, (List.replicate n 0).all (fun b => decide (b = 0)) = true := by
  intro n
  induction n with
  | zero => rfl
  | succ n ih => simp [List.replicate, ih]

/-- Numeral bridge for the 4-byte width. -/
theorem lt_pow_four {n : Nat} (h : n < 4294967296) : n < 256 ^ 4 := by
  have e : (256 : Nat) ^ 4 = 4294967296 := by norm_num
  omega

/-- Numeral bridge for the 2-byte width. -/
theorem lt_pow_two {n : Nat} (h : n < 65536) : n < 256 ^ 2 := by
  have e : (256 : Nat) ^ 2 = 65536 := by norm_num
  omega

/-- Numeral bridge for the 1-byte width. -/
theorem lt_pow_one {n : Nat} (h : n < 256) : n < 256 ^ 1 := by
  have e : (256 : Nat) ^ 1 = 256 := by norm_num
  omega

/-- A well-formed column payload round trips. -/
theorem run_readColumn {d : ColumnDefinition} {rows : Nat} {col : ColumnData}
    (h : columnOk d rows col = true) (rest : List Nat) :
    readColumn d rows (encodeColumn d.nullable rows col ++ rest) = Except.ok (col, rest) := by
  cases col with
  | value vs =>
    simp only [columnOk, Bool.and_eq_true, decide_eq_true_eq, List.all_eq_true] at h
    obtain ⟨hlen, hvals⟩ := h
    subst hlen
    have hrest :
        (do
          let vs2 ← readN vs.length (readValue d.dataType)
          ReadM.pure (ColumnData.value vs2) : ReadM ColumnData)
          ((vs.map encValue).flatten ++ rest) = Except.ok (ColumnData.value vs, rest) :=
      seq_ok (run_readN (readValue d.dataType) encValue vs
        (fun x hx rest2 => run_readValue (hvals x hx) rest2) rest) rfl
    cases hn : d.nullable with
    | true =>
      show readColumn d vs.length
        ((w8 0 ++ (List.replicate vs.length 0 ++ (vs.map encValue).flatten)) ++ rest) = _
      rw [List.append_assoc, List.append_assoc]
      refine seq_ok (run_readLE (by decide) _) ?_
      rw [hn]
      refine seq_ok (run_readBytes2 (List.length_replicate vs.length 0) _) ?_
      rw [if_pos (replicate_all_zero vs.length)]
      exact hrest
    | false =>
      show readColumn d vs.length
        ((w8 0 ++ ([] ++ (vs.map encValue).flatten)) ++ rest) = _
      rw [List.append_assoc, List.append_assoc]
      refine seq_ok (run_readLE (by decide) _) ?_
      rw [hn]
      refine seq_ok (show ReadM.pure ([] : List Nat) _ = Except.ok (([] : List Nat), _) from rfl) ?_
      rw [if_pos (show (List.all [] fun b => decide (b = 0)) = true from rfl)]
      exact hrest
  | dictionary w dict codes =>
    simp only [columnOk, Bool.and_eq_true, Bool.or_eq_true, decide_eq_true_eq,
      List.all_eq_true] at h
    obtain ⟨⟨⟨⟨hw, hdlen⟩, hdvals⟩, hclen⟩, hcodes⟩ := h
    subst hclen
    have hw2 : w = 1 ∨ w = 2 ∨ w = 4 := by omega
    have hw256 : w < 256 ^ 1 := lt_pow_one (by omega)
    show readColumn d codes.length
      ((w8 1 ++ (w8 w ++ (w32 dict.length ++ ((dict.map encValue).flatten ++
        (codes.map (encWidth w)).flatten)))) ++ rest) = _
    simp only [List.append_assoc]
    refine seq_ok (run_readLE (by decide) _) ?_
    refine seq_ok (run_readLE hw256 _) ?_
    rw [if_pos hw2]
    refine seq_ok (run_readLE (lt_pow_four hdlen) _) ?_
    refine seq_ok (run_readN (readValue d.dataType) encValue dict
      (fun x hx rest2 => run_readValue (hdvals x hx) rest2) _) ?_
    refine seq_ok (run_readN (readLE w) (encWidth w)
      codes (fun x hx rest2 => run_readLE (hcodes x hx) rest2) _) ?_
    rfl

/-- The columns of a chunk round trip in schema order. -/
theorem run_readColumns :
    ∀ (defs : List ColumnDefinition) (cols : List ColumnData) (rows : Nat),
      defs.length = cols.length →
      (∀ pr ∈ List.zip defs cols, columnOk pr.1 rows pr.2 = true) →
      ∀ rest,
        readColumns defs rows
          (((List.zip defs cols).map
            (fun pr => encodeColumn pr.1.nullable rows pr.2)).flatten ++ rest) =
          Except.ok (cols, rest) := by
  intro defs
  induction defs with
  | nil =>
    intro cols rows hlen h rest
    cases cols with
    | nil => rfl
    | cons c cs => simp at hlen
  | cons d ds ih =>
    intro cols rows hlen h rest
    cases cols with
    | nil => simp at hlen
    | cons c cs =>
      have hzip : List.zip (d :: ds) (c :: cs) = (d, c) :: List.zip ds cs := rfl
      rw [hzip, List.map_cons, List.flatten_cons, List.append_assoc]
      exact seq_ok (run_readColumn (h (d, c) (by rw [hzip]; simp)) _)
        (seq_ok (ih cs rows (by simpa using hlen)
          (fun pr hpr => h pr (by rw [hzip]; exact List.mem_cons_of_mem _ hpr)) rest) rfl)

/-- A well-formed chunk round trips. -/
theorem run_readChunk {defs : List ColumnDefinition} {c : Chunk}
    (h : chunkOk defs c = true) (rest : List Nat) :
    readChunk defs (encodeChunk defs c ++ rest) = Except.ok (c, rest) := by
  simp only [chunkOk, Bool.and_eq_true, decide_eq_true_eq, List.all_eq_true] at h
  obtain ⟨⟨hlen, hrows⟩, hcols⟩ := h
  unfold encodeChunk
  rw [List.append_assoc]
  refine seq_ok (run_readLE (lt_pow_four hrows) _) ?_
  refine seq_ok (run_readColumns defs c.columns c.rowCount hlen.symm hcols rest) ?_
  rfl

/-- A well-formed partitioning header round trips. -/
theorem run_readPartitioningHeader {schema : PartitionSchema} {pcount : Nat}
    (hp : pcount < 65536) (hs : schemaOk pcount schema = true) (rest : List Nat) :
    readPartitioningHeader
      (w8 (schemaTag schema) ++ w16 pcount ++ schemaPayload schema ++ rest) =
      Except.ok ((schema, pcount), rest) := by
  have hp2 : pcount < 256 ^ 2 := lt_pow_two hp
  cases schema with
  | nullPartitioning =>
    exact seq_ok (run_readLE (by decide) _) (seq_ok (run_readLE hp2 _) rfl)
  | roundRobin =>
    exact seq_ok (run_readLE (by decide) _) (seq_ok (run_readLE hp2 _) rfl)
  | range cid dt bounds =>
    simp only [schemaOk, Bool.and_eq_true, decide_eq_true_eq, List.all_eq_true] at hs
    obtain ⟨⟨hcid, hblen⟩, hbounds⟩ := hs
    show readPartitioningHeader
      (w8 2 ++ w16 pcount ++ (w32 cid ++ (w8 (typeTag dt) ++ (bounds.map encValue).flatten)) ++ rest) = _
    simp only [List.append_assoc]
    refine seq_ok (run_readLE (by decide) _) ?_
    refine seq_ok (run_readLE hp2 _) ?_
    refine seq_ok (run_readLE (lt_pow_four hcid) _) ?_
    refine seq_ok (run_readDataType dt _) ?_
    have hcount : pcount - 1 = bounds.length := by omega
    rw [hcount]
    refine seq_ok (run_readN (readValue dt) encValue bounds
      (fun x hx rest2 => run_readValue (hbounds x hx) rest2) _) ?_
    rfl
  | hash cid =>
    simp only [schemaOk, decide_eq_true_eq] at hs
    show readPartitioningHeader (w8 3 ++ w16 pcount ++ w32 cid ++ rest) = _
    simp only [List.append_assoc]
    refine seq_ok (run_readLE (by decide) _) ?_
    refine seq_ok (run_readLE hp2 _) ?_
    refine seq_ok (run_readLE (lt_pow_four hs) _) ?_
    rfl

/-- A well-formed partition block round trips. -/
theorem run_readPartition {p : List Nat} (hlen : p.length < 4294967296)
    (hids : ∀ i ∈ p, i < 4294967296) (rest : List Nat) :
    readPartition (encodePartition p ++ rest) = Except.ok (p, rest) := by
  unfold encodePartition
  rw [List.append_assoc]
  exact seq_ok (run_readLE (lt_pow_four hlen) _)
    (run_readN (readLE 4) w32 p (fun i hi rest2 => run_readLE (lt_pow_four (hids i hi)) rest2) rest)

/-- The column type-tag array round trips. -/
theorem run_read_types : ∀ (defs : List ColumnDefinition) (rest : List Nat),
    readN defs.length readDataType
      ((defs.map (fun d => w8 (typeTag d.dataType))).flatten ++ rest) =
      Except.ok (defs.map (fun d => d.dataType), rest) := by
  intro defs
  induction defs with
  | nil => intro rest; rfl
  | cons d ds ih =>
    intro rest
    rw [List.map_cons, List.flatten_cons, List.append_assoc]
    exact seq_ok (run_readDataType d.dataType _) (seq_ok (ih rest) rfl)

/-- The column nullability array round trips. -/
theorem run_read_nullables : ∀ (defs : List ColumnDefinition) (rest : List Nat),
    readN defs.length readBoolByte
      ((defs.map (fun d => w8 (if d.nullable then 1 else 0))).flatten ++ rest) =
      Except.ok (defs.map (fun d => d.nullable), rest) := by
  intro defs
  induction defs with
  | nil => intro rest; rfl
  | cons d ds ih =>
    intro rest
    rw [List.map_cons, List.flatten_cons, List.append_assoc]
    exact seq_ok (run_readBoolByte d.nullable _) (seq_ok (ih rest) rfl)

/-- The column name-length array round trips. -/
theorem run_read_name_lengths : ∀ (defs : List ColumnDefinition),
    (∀ d ∈ defs, d.name.length < 256) → ∀ rest : List Nat,
    readN defs.length (readLE 1)
      ((defs.map (fun d => w8 d.name.length)).flatten ++ rest) =
      Except.ok (defs.map (fun d => d.name.length), rest) := by
  intro defs
  induction defs with
  | nil => intro _ rest; rfl
  | cons d ds ih =>
    intro h rest
    rw [List.map_cons, List.flatten_cons, List.append_assoc]
    exact seq_ok (run_readLE (lt_pow_one (h d (by simp))) _)
      (seq_ok (ih (fun x hx => h x (by simp [hx])) rest) rfl)

/-- The concatenated column names round trip against the length
array. -/
theorem run_read_names : ∀ (defs : List ColumnDefinition) (rest : List Nat),
    readNames (defs.map (fun d => d.name.length))
      ((defs.map (fun d => d.name.map Char.toNat)).flatten ++ rest) =
      Except.ok (defs.map (fun d => d.name), rest) := by
  intro defs
  induction defs with
  | nil => intro rest; rfl
  | cons d ds ih =>
    intro rest
    rw [List.map_cons, List.map_cons, List.flatten_cons, List.append_assoc]
    show (readBytes d.name.length >>= fun bs => readNames (ds.map fun d => d.name.length) >>=
      fun ns => ReadM.pure (bs.map Char.ofNat :: ns))
      ((d.name.map Char.toNat) ++ ((ds.map (fun d => d.name.map Char.toNat)).flatten ++ rest)) = _
    refine seq_ok (run_readBytes2 (List.length_map d.name Char.toNat) _) ?_
    refine seq_ok (ih rest) ?_
    show ReadM.pure ((d.name.map Char.toNat).map Char.ofNat :: ds.map fun d => d.name) rest = _
    rw [map_ofNat_toNat]
    rfl

/-- Re-zipping the parallel header arrays restores the column
definitions. -/
theorem zip3Defs_eq : ∀ defs : List ColumnDefinition,
    zip3Defs (defs.map (fun d => d.name)) (defs.map (fun d => d.dataType))
      (defs.map (fun d => d.nullable)) = defs := by
  intro defs
  induction defs with
  | nil => rfl
  | cons d ds ih =>
    show (⟨d.name, d.dataType, d.nullable⟩ : ColumnDefinition) ::
      zip3Defs (ds.map (fun d => d.name)) (ds.map (fun d => d.dataType))
        (ds.map (fun d => d.nullable)) = d :: ds
    rw [ih]

/-- A well-formed table's byte stream reads back to the table. -/
theorem run_readTable {t : Table} (h : tableWF t = true) (rest : List Nat) :
    readTable (encodeTable t ++ rest) = Except.ok (t, rest) := by
  simp only [tableWF, Bool.and_eq_true, decide_eq_true_eq, List.all_eq_true] at h
  obtain ⟨⟨⟨⟨⟨⟨⟨hcs, hcc⟩, hcolc⟩, hnames⟩, hpc⟩, hschema⟩, hparts⟩, hchunks⟩ := h
  unfold encodeTable
  simp only [List.append_assoc]
  refine seq_ok (run_readLE (lt_pow_four hcs) _) ?_
  refine seq_ok (run_readLE (lt_pow_four hcc) _) ?_
  refine seq_ok (run_readLE (lt_pow_two hcolc) _) ?_
  refine seq_ok (run_read_types t.columnDefinitions _) ?_
  refine seq_ok (run_read_nullables t.columnDefinitions _) ?_
  refine seq_ok (run_read_name_lengths t.columnDefinitions
    (fun d hd => (hnames d hd).1) _) ?_
  refine seq_ok (run_read_names t.columnDefinitions _) ?_
  rw [zip3Defs_eq]
  refine seq_ok (run_readPartitioningHeader hpc hschema _) ?_
  refine seq_ok (run_readN readPartition encodePartition t.partitions
    (fun p hp rest2 => run_readPartition (hparts p hp).1 (hparts p hp).2 rest2) _) ?_
  refine seq_ok (run_readN (readChunk t.columnDefinitions) (encodeChunk t.columnDefinitions)
    t.chunks (fun c hc rest2 => run_readChunk (hchunks c hc) rest2) rest) ?_
  rfl

/-- C1: for every well-formed table of non-null Value and Dictionary
columns, decoding the encoded byte stream returns exactly the table:
schema (names, types, nullability), partitioning scheme and state,
chunk-to-partition assignment, chunk count, row counts and every stored
value are reproduced.  Well-formedness says every count, id, length and
value fits the machine-integer field of the format that stores it. -/
theorem binary_round_trip (t : Table) (h : tableWF t = true) :
    decode (encodeTable t) = Except.ok t := by
  unfold decode
  rw [show encodeTable t = encodeTable t ++ [] from (List.append_nil _).symm,
    run_readTable h []]

/-- C1 witness: the round trip on a concrete range-partitioned table
with an int value column and a string dictionary column. -/
theorem binary_round_trip_witness :
    tableWF exampleTable = true ∧ decode (encodeTable exampleTable) = Except.ok exampleTable :=
  ⟨by decide, binary_round_trip exampleTable (by decide)⟩

/- ### Theorems: binary export of reference columns (C6) -/

/-- C6 counterexample: exporting a chunk whose only column is a raw
Reference column succeeds and produces a value-column-layout payload —
it does not return an error. -/
theorem export_reference_column_counterexample :
    export_columns [ExportColumn.referenceColumn [Value.vInt 1]] =
      Except.ok [0, 1, 0, 0, 0] := rfl

/-- C6 amended: the binary export never fails on a Reference column:
the visitor dumps a reference column as a value-column-like payload of
its materialized row values (export_binary.hpp:166-186), and a chunk
containing any mix of Value, Dictionary and Reference columns exports
successfully. -/
theorem export_reference_column_succeeds :
    (∀ vs : List Value, handle_column (ExportColumn.referenceColumn vs) =
      Except.ok (w8 0 ++ (vs.map encValue).flatten)) ∧
    ∀ cols : List ExportColumn, ∃ bs : List Nat, export_columns cols = Except.ok bs := by
  refine ⟨fun vs => rfl, ?_⟩
  intro cols
  induction cols with
  | nil => exact ⟨[], rfl⟩
  | cons c cs ih =>
    obtain ⟨bs, hbs⟩ := ih
    cases c with
    | valueColumn nullable vs =>
      exact ⟨_, by rw [export_columns, handle_column, hbs]⟩
    | dictionaryColumn w dict codes =>
      exact ⟨_, by rw [export_columns, handle_column, hbs]⟩
    | referenceColumn vs =>
      exact ⟨_, by rw [export_columns, handle_column, hbs]⟩
